import Mathlib

/-!
# Verification of the isl_astar pathfinding engine (src/isl_astar.h)

Shallow embedding of the single-header A* library: the node record, the
dynamic reference list (isla_path), the indirect binary heap, the cleanup
and path-building helpers, and the search driver isla_find_path.

Modelling conventions:
* Node storage is a total map from node identifiers (Nat) to node records;
  the C code mutates nodes through pointers, here the map is threaded.
* Costs (isla_cost, configurable in C) are modelled as Int.
* The caller callbacks (neighbor iterator, edge cost, heuristic, goal
  predicate) are pure functions of node identifiers; the iterator protocol
  next_neighbor(node, prev) is modelled as the per-node list it enumerates.
* Allocation always succeeds in the model; the dynamic lists carry only
  their active contents (capacity growth does not change observable values),
  so the two allocation-failure statuses never arise.
* Out-of-range heap swaps (undefined behavior in C, reachable only through
  corrupted position indices) are modelled as no-ops, and out-of-range cost
  reads resolve to node 0.
* The unbounded while-loop of the driver and the parent-chasing loop of the
  path builder take explicit fuel; exhaustion is a distinguished outcome.
-/

namespace IslAstar

/-- Node identifier: stands for an isla_node pointer in caller storage. -/
abbrev NodeId := Nat

/-- isla_node_status: DEFAULT (unvisited), OPENED, CLOSED. -/
inductive NodeStatus where
  | default
  | opened
  | closed
deriving DecidableEq, Repr

/-- The engine-visible fields of struct isla_node: heap position index,
g cost, f cost, status, parent back-reference.  The opaque payload field
is never touched by the engine and is omitted. -/
structure Node where
  index : Nat
  g : Int
  f : Int
  status : NodeStatus
  parent : Option NodeId
deriving DecidableEq, Repr

/-- The all-zero node record: the default state the cleanup restores. -/
def Node.init : Node := ⟨0, 0, 0, .default, none⟩

/-- Caller-owned node storage: one record per node identifier. -/
abbrev Mem := NodeId → Node

/-- Swap of two list positions; identity when either index is out of
range (in the C source the unguarded swap on invalid indices is undefined
behavior).  This is the list part of isla__heap_swap and the loop body of
isla_reverse_path. -/
def lswap {α : Type} (l : List α) (i j : Nat) : List α :=
  match l[i]?, l[j]? with
  | some a, some b => (l.set i b).set j a
  | _, _ => l

/-- isla_reverse_path loop body iteration: for i from 0 while i < half,
swap positions i and length-1-i.  The parameter half is fixed at entry
(length / 2 in the source) and the list length is invariant. -/
def reverseLoop {α : Type} (half : Nat) (l : List α) (i : Nat) : List α :=
  if i < half then reverseLoop half (lswap l i (l.length - i - 1)) (i + 1) else l
termination_by half - i

/-- isla_reverse_path: in-place reversal by swapping the two halves. -/
def isla_reverse_path {α : Type} (l : List α) : List α :=
  reverseLoop (l.length / 2) l 0

/-- isla__heap_swap: exchanges two heap slots and records the new slot in
each moved node's index field (the intrusive heap-position back-reference).
Identity on out-of-range indices (undefined behavior in the C source). -/
def heapSwap (s : Mem) (l : List NodeId) (i j : Nat) : Mem × List NodeId :=
  match l[i]?, l[j]? with
  | some a, some b =>
      (Function.update (Function.update s b { s b with index := i }) a
          { s a with index := j },
        (l.set i b).set j a)
  | _, _ => (s, l)

/-- isla__heap_siftup: bubble the element at the given slot up while it is
strictly cheaper (by f) than its parent; returns the final slot.  Reads of
out-of-range slots resolve to node 0 (undefined behavior in the C source). -/
def heapSiftup (s : Mem) (l : List NodeId) (i : Nat) : (Mem × List NodeId) × Nat :=
  if 0 < i ∧ (s (l.getD i 0)).f < (s (l.getD ((i - 1) / 2) 0)).f then
    heapSiftup (heapSwap s l i ((i - 1) / 2)).1 (heapSwap s l i ((i - 1) / 2)).2
      ((i - 1) / 2)
  else ((s, l), i)
termination_by i
decreasing_by
  rename_i h
  have := Nat.div_le_self (i - 1) 2
  omega

/-- The child slot the sift-down steps pick: the right child when it exists
and is strictly cheaper, the left child otherwise (the ternary expression
computing higher in the C source). -/
def higherChild (s : Mem) (l : List NodeId) (i : Nat) : Nat :=
  if 2 * i + 2 < l.length ∧
      (s (l.getD (2 * i + 2) 0)).f < (s (l.getD (2 * i + 1) 0)).f
  then 2 * i + 2 else 2 * i + 1

/-- isla__heap_siftdown_floyd: walk the element at the given slot all the
way down, always swapping with the cheaper child, then correct with one
sift-up pass from the leaf it reached. -/
def heapSiftdownFloyd (s : Mem) (l : List NodeId) (i : Nat) : Mem × List NodeId :=
  if h : 2 * i + 1 < l.length then
    heapSiftdownFloyd (heapSwap s l i (higherChild s l i)).1
      (heapSwap s l i (higherChild s l i)).2 (higherChild s l i)
  else (heapSiftup s l i).1
termination_by l.length - i
decreasing_by
  have hlen : (heapSwap s l i (higherChild s l i)).2.length = l.length := by
    unfold heapSwap
    cases hi : l[i]? <;> cases hj : l[higherChild s l i]? <;> simp
  rw [hlen]
  unfold higherChild
  split <;> omega

/-- isla__heap_siftdown: classic sift-down, stopping as soon as the element
is cheaper than the cheaper of its children. -/
def heapSiftdown (s : Mem) (l : List NodeId) (i : Nat) : Mem × List NodeId :=
  if h : 2 * i + 1 < l.length then
    if (s (l.getD i 0)).f < (s (l.getD (higherChild s l i) 0)).f then (s, l)
    else
      heapSiftdown (heapSwap s l i (higherChild s l i)).1
        (heapSwap s l i (higherChild s l i)).2 (higherChild s l i)
  else (s, l)
termination_by l.length - i
decreasing_by
  have hlen : (heapSwap s l i (higherChild s l i)).2.length = l.length := by
    unfold heapSwap
    cases hi : l[i]? <;> cases hj : l[higherChild s l i]? <;> simp
  rw [hlen]
  unfold higherChild
  split <;> omega

/-- isla__path_push: append to the active contents (allocation growth always
succeeds in the model). -/
def pathPush (l : List NodeId) (x : NodeId) : List NodeId := l ++ [x]

/-- isla__heap_enqueue: push then sift up from the new last slot. -/
def isla_heap_enqueue (s : Mem) (l : List NodeId) (x : NodeId) :
    Mem × List NodeId :=
  (heapSiftup s (pathPush l x) ((pathPush l x).length - 1)).1

/-- isla__heap_dequeue: NULL on empty; direct pop on a singleton; otherwise
swap the root with the last slot, shrink, and run the Floyd sift-down from
the root. -/
def isla_heap_dequeue (s : Mem) (l : List NodeId) :
    Option NodeId × Mem × List NodeId :=
  match l with
  | [] => (none, s, l)
  | [x] => (some x, s, [])
  | x :: _ :: _ =>
    let p := heapSwap s l 0 (l.length - 1)
    let q := heapSiftdownFloyd p.1 p.2.dropLast 0
    (some x, q.1, q.2)

/-- isla__heap_update: sift up from the node's recorded index, then sift
down from wherever that landed. -/
def isla_heap_update (s : Mem) (l : List NodeId) (x : NodeId) :
    Mem × List NodeId :=
  let r := heapSiftup s l (s x).index
  heapSiftdown r.1.1 r.1.2 r.2

/-- Key of a heap slot: the f cost of the node reference stored there. -/
def keyAt (c : NodeId → Int) (l : List NodeId) (i : Nat) : Int :=
  c (l.getD i 0)

/-- Pure mirror of the list component of heapSiftup, for a fixed key
function (heap operations never change any f cost). -/
def siftupP (c : NodeId → Int) (l : List NodeId) (i : Nat) : List NodeId × Nat :=
  if 0 < i ∧ keyAt c l i < keyAt c l ((i - 1) / 2) then
    siftupP c (lswap l i ((i - 1) / 2)) ((i - 1) / 2)
  else (l, i)
termination_by i
decreasing_by
  rename_i h
  have := Nat.div_le_self (i - 1) 2
  omega

/-- Pure mirror of higherChild for a fixed key function. -/
def higherChildP (c : NodeId → Int) (l : List NodeId) (i : Nat) : Nat :=
  if 2 * i + 2 < l.length ∧ keyAt c l (2 * i + 2) < keyAt c l (2 * i + 1)
  then 2 * i + 2 else 2 * i + 1

/-- Pure mirror of the list component of heapSiftdownFloyd. -/
def floydP (c : NodeId → Int) (l : List NodeId) (i : Nat) : List NodeId :=
  if h : 2 * i + 1 < l.length then
    floydP c (lswap l i (higherChildP c l i)) (higherChildP c l i)
  else (siftupP c l i).1
termination_by l.length - i
decreasing_by
  have hlen : (lswap l i (higherChildP c l i)).length = l.length := by
    unfold lswap
    cases hi : l[i]? <;> cases hj : l[higherChildP c l i]? <;> simp
  rw [hlen]
  unfold higherChildP
  split <;> omega

/-- The binary min-heap property on f costs: every non-root slot is at
least its parent slot. -/
def IsHeap (c : NodeId → Int) (l : List NodeId) : Prop :=
  ∀ j, j < l.length → 0 < j → keyAt c l ((j - 1) / 2) ≤ keyAt c l j

/-- Precondition of the sift-up pass at slot q: the heap property holds on
every edge not pointing into q, and every child of q is at least q's own
parent (so the element at q is the only possible violator, downward). -/
def UpInv (c : NodeId → Int) (l : List NodeId) (q : Nat) : Prop :=
  (∀ j, j < l.length → 0 < j → j ≠ q → keyAt c l ((j - 1) / 2) ≤ keyAt c l j) ∧
  (∀ j, j < l.length → 0 < j → (j - 1) / 2 = q → q ≠ 0 →
    keyAt c l ((q - 1) / 2) ≤ keyAt c l j)

/-- Invariant of the Floyd descent at slot p: the heap property holds on
every edge not incident to p, and every child of p is at least p's own
parent. -/
def DownInv (c : NodeId → Int) (l : List NodeId) (p : Nat) : Prop :=
  (∀ j, j < l.length → 0 < j → j ≠ p → (j - 1) / 2 ≠ p →
    keyAt c l ((j - 1) / 2) ≤ keyAt c l j) ∧
  (∀ j, j < l.length → 0 < j → (j - 1) / 2 = p → p ≠ 0 →
    keyAt c l ((p - 1) / 2) ≤ keyAt c l j)

/-- Two node stores agree on every engine field except the heap position
index.  The heap operations only write index fields, so they relate input
and output stores by SameCore. -/
def SameCore (s t : Mem) : Prop :=
  ∀ x, (t x).g = (s x).g ∧ (t x).f = (s x).f ∧
    (t x).status = (s x).status ∧ (t x).parent = (s x).parent

/-- The callback bundle isla_properties.  The neighbor iterator is given by
the finite list it enumerates for each node; cache_used and cache_open are
the optional caller-supplied scratch buffers (their active contents). -/
structure Props where
  nextNeighbor : NodeId → List NodeId
  evalCost : NodeId → NodeId → Int
  estimateCost : NodeId → NodeId → Int
  isFinishNode : Option (NodeId → Bool)
  cache_used : Option (List NodeId)
  cache_open : Option (List NodeId)

/-- The node-reset loop of isla__cleanup: restore every node recorded in
the touched ledger to the all-zero default record.  The disposal of the
scratch lists themselves (truncate-on-cached / destroy-on-fresh) is
represented at the isla_find_path level. -/
def cleanupNodes (s : Mem) (used : List NodeId) : Mem :=
  used.foldl (fun m n => Function.update m n Node.init) s

/-- isla__build_path: follow parent links from the given node, appending
each visited node, until a node with no parent; fuel bounds the walk (the
C do-while loop does not terminate on a cyclic parent chain). -/
def isla_build_path (s : Mem) : Nat → NodeId → List NodeId → Option (List NodeId)
  | 0, _, _ => none
  | fuel + 1, x, acc =>
    match (s x).parent with
    | none => some (pathPush acc x)
    | some p => isla_build_path s fuel p (pathPush acc x)

/-- In-flight search state: node storage, the open list and the touched
ledger (active contents of the two isla_path scratch structures). -/
structure SState where
  mem : Mem
  openl : List NodeId
  usedl : List NodeId

/-- One neighbor-relaxation step of the inner while loop of isla_find_path
(lines 348-372 of the source): skip CLOSED neighbors; on improvement record
g, f = g + estimate_cost(node, finish) and parent; then either reposition
an OPENED neighbor in the open list, or mark it OPENED, heap-enqueue it
into the used ledger and plainly append it to the open list (exactly as the
source does). -/
def relaxOne (P : Props) (finish node : NodeId) (st : SState)
    (neighbor : NodeId) : SState :=
  let nb := st.mem neighbor
  if nb.status ≠ NodeStatus.closed then
    let g := (st.mem node).g + P.evalCost node neighbor
    if nb.status = NodeStatus.default ∨ g < nb.g then
      let m1 := Function.update st.mem neighbor
        { nb with
          g := g
          f := g + P.estimateCost node finish
          parent := some node }
      if nb.status = NodeStatus.opened then
        let r := isla_heap_update m1 st.openl neighbor
        ⟨r.1, r.2, st.usedl⟩
      else
        let m2 := Function.update m1 neighbor
          { m1 neighbor with status := NodeStatus.opened }
        let r := isla_heap_enqueue m2 st.usedl neighbor
        ⟨r.1, pathPush st.openl neighbor, r.2⟩
    else st
  else st

/-- Result of one iteration of the main while loop. -/
inductive StepRes where
  | continued (s : SState)
  | foundPath (path : List NodeId) (s : SState)
  | blockedRes (s : SState)
  | buildFail (s : SState)

/-- One iteration of the main while loop of isla_find_path: dequeue the
root of the open list, mark it CLOSED, test the goal (pointer equality with
finish, or the optional predicate) and on success build the path from
finish (exactly as the source does), otherwise relax all neighbors. -/
def step (P : Props) (finish : NodeId) (bfuel : Nat) (st : SState) : StepRes :=
  match st.openl with
  | [] => .blockedRes st
  | _ :: _ =>
    let d := isla_heap_dequeue st.mem st.openl
    match d.1 with
    | none => .blockedRes st
    | some node =>
      let m2 := Function.update d.2.1 node
        { d.2.1 node with status := NodeStatus.closed }
      let st2 : SState := ⟨m2, d.2.2, st.usedl⟩
      let isGoal : Bool := (node == finish) ||
        (match P.isFinishNode with | some pr => pr node | none => false)
      if isGoal then
        match isla_build_path m2 bfuel finish [] with
        | some p => .foundPath p st2
        | none => .buildFail st2
      else
        .continued ((P.nextNeighbor node).foldl (relaxOne P finish node) st2)

/-- Iterate the main-loop step k times (stopping at any terminal step),
exposing the in-flight trajectory of the search for invariant statements. -/
def stepIter (P : Props) (finish : NodeId) (bfuel : Nat) :
    Nat → SState → SState
  | 0, st => st
  | k + 1, st =>
    match step P finish bfuel st with
    | .continued s2 => stepIter P finish bfuel k s2
    | .foundPath _ s2 => s2
    | .blockedRes s2 => s2
    | .buildFail s2 => s2

/-- Outcome tags: isla_status with the two allocation failures omitted
(allocation always succeeds in the model) and a fuel-exhaustion artifact
tag added. -/
inductive RunStatus where
  | ok
  | blocked
  | badArguments
  | outOfFuel
deriving DecidableEq, Repr

/-- The main while loop of isla_find_path, with fuel. -/
def findLoop (P : Props) (finish : NodeId) :
    Nat → SState → RunStatus × Option (List NodeId) × SState
  | 0, st => (.outOfFuel, none, st)
  | fuel + 1, st =>
    match step P finish (fuel + 1) st with
    | .continued s2 => findLoop P finish fuel s2
    | .foundPath p s2 => (.ok, some p, s2)
    | .blockedRes s2 => (.blocked, none, s2)
    | .buildFail s2 => (.outOfFuel, none, s2)

/-- What a call to isla_find_path leaves behind: the result struct (status
and optional path), the caller's node storage, and the caller's two scratch
buffers (unchanged when absent or unused, truncated to empty in caching
mode). -/
structure Outcome where
  status : RunStatus
  path : Option (List NodeId)
  mem : Mem
  cacheOpen : Option (List NodeId)
  cacheUsed : Option (List NodeId)

/-- The state isla_find_path enters its main loop with: scratch lists
(cached when both caller buffers are present, fresh empty lists otherwise)
with the start node enqueued, then start.g = 0 and
start.f = estimate_cost(start, finish), in the source's order. -/
def initialState (st fi : NodeId) (P : Props) (mem : Mem) : SState :=
  let cached := P.cache_open.isSome && P.cache_used.isSome
  let openl0 := if cached then P.cache_open.getD [] else []
  let usedl0 := if cached then P.cache_used.getD [] else []
  let e := isla_heap_enqueue mem openl0 st
  ⟨Function.update e.1 st { e.1 st with g := 0, f := P.estimateCost st fi },
    e.2, usedl0⟩

/-- isla_find_path: argument validation, scratch acquisition, seeding of
the start node, the main loop, and cleanup on every non-fuel exit. -/
def isla_find_path (start finish : Option NodeId) (props : Option Props)
    (mem : Mem) (fuel : Nat) : Outcome :=
  match start, finish, props with
  | some st, some fi, some P =>
    let cached := P.cache_open.isSome && P.cache_used.isSome
    let r := findLoop P fi fuel (initialState st fi P mem)
    if r.1 = RunStatus.outOfFuel then
      { status := .outOfFuel, path := none, mem := r.2.2.mem,
        cacheOpen := P.cache_open, cacheUsed := P.cache_used }
    else
      { status := r.1, path := r.2.1,
        mem := cleanupNodes r.2.2.mem r.2.2.usedl,
        cacheOpen := if cached then some [] else P.cache_open,
        cacheUsed := if cached then some [] else P.cache_used }
  | _, _, _ =>
    { status := .badArguments, path := none, mem := mem,
      cacheOpen := match props with | some P => P.cache_open | none => none,
      cacheUsed := match props with | some P => P.cache_used | none => none }

/-- Two sequential searches with the same callback bundle, the second one
reusing whatever the first call left in the caller's cache fields, on the
node storage the first call left behind. -/
def runTwoSearches (P : Props) (s1 f1 s2 f2 : NodeId) (mem : Mem)
    (fuel : Nat) : Outcome × Outcome :=
  let r1 := isla_find_path (some s1) (some f1) (some P) mem fuel
  let r2 := isla_find_path (some s2) (some f2)
    (some { P with cache_open := r1.cacheOpen, cache_used := r1.cacheUsed })
    r1.mem fuel
  (r1, r2)

instance (c : NodeId → Int) (l : List NodeId) : Decidable (IsHeap c l) := by
  unfold IsHeap
  infer_instance

/-- All-default node storage, as a caller obtains from zero-initialized
node arrays. -/
def memInit : Mem := fun _ => Node.init

/-- Demo graph for the relaxation f-cost computation: one edge 0 -> 1 of
cost 7, goal node 2 unreachable, heuristic 5 from node 0 and 0 elsewhere. -/
def onePathProps : Props :=
  { nextNeighbor := fun n => if n = 0 then [1] else []
    evalCost := fun _ _ => 7
    estimateCost := fun a _ => if a = 0 then 5 else 0
    isFinishNode := none
    cache_used := none
    cache_open := none }

/-- The search state after seeding and one main-loop iteration of the
search from 0 towards 2 on onePathProps: node 0 expanded, node 1 freshly
discovered and relaxed. -/
def c1state : SState := stepIter onePathProps 2 5 1 (initialState 0 2 onePathProps memInit)

/-- Demo graph for a complete successful search 0 -> 1: one edge of cost 7,
heuristic 5 from node 0 and 0 elsewhere. -/
def reachProps : Props :=
  { nextNeighbor := fun n => if n = 0 then [1] else []
    evalCost := fun _ _ => 7
    estimateCost := fun a _ => if a = 0 then 5 else 0
    isFinishNode := none
    cache_used := none
    cache_open := none }

/-- Demo graph with two neighbors of node 0, the second one cheaper
(f = 3) than the first (f = 10), goal 9 unreachable. -/
def twoNeighborProps : Props :=
  { nextNeighbor := fun n => if n = 0 then [1, 2] else []
    evalCost := fun _ b => if b = 1 then 10 else 3
    estimateCost := fun _ _ => 0
    isFinishNode := none
    cache_used := none
    cache_open := none }

/-- The search state after seeding and one main-loop iteration of the
search from 0 towards 9 on twoNeighborProps: both neighbors freshly
discovered in one expansion. -/
def c3state : SState :=
  stepIter twoNeighborProps 9 5 1 (initialState 0 9 twoNeighborProps memInit)

/-- Demo graph where the caller-supplied goal predicate accepts node 1
while the finish argument is the never-reached node 5. -/
def predicateProps : Props :=
  { nextNeighbor := fun n => if n = 0 then [1] else []
    evalCost := fun _ _ => 1
    estimateCost := fun _ _ => 0
    isFinishNode := some (fun n => n == 1)
    cache_used := none
    cache_open := none }

/-- Concrete three-node storage carrying a valid min-heap on f costs for
the ids [1, 2, 3]. -/
def heapDemoMem : Mem := fun n =>
  if n = 1 then { Node.init with f := 3 }
  else if n = 2 then { Node.init with f := 7 }
  else if n = 3 then { Node.init with f := 9 }
  else Node.init

/-- The one-edge search graph with caller-supplied (empty) scratch
buffers: caching mode. -/
def cachedReachProps : Props :=
  { reachProps with
    cache_open := some []
    cache_used := some [] }

/-- cachedReachProps stripped of its scratch buffers: fresh-buffer mode. -/
def cachedReachFresh : Props :=
  { cachedReachProps with
    cache_open := none
    cache_used := none }

/-- The one-edge search graph with only an open-list cache buffer
supplied (and deliberately nonempty contents): non-caching mode. -/
def singleCacheProps : Props :=
  { reachProps with
    cache_open := some [7]
    cache_used := none }

/-- singleCacheProps stripped of its scratch buffers. -/
def singleCacheFresh : Props :=
  { singleCacheProps with
    cache_open := none
    cache_used := none }

/-- A mid-search state with node 0 CLOSED and out of the open list. -/
def closedDemoState : SState :=
  ⟨Function.update memInit 0 { Node.init with status := NodeStatus.closed },
    [1], [1]⟩

/-- The state right after the dequeue-and-close prefix of one main-loop
iteration whose dequeued node is a. -/
def dequeuedState (st : SState) (a : NodeId) : SState :=
  ⟨Function.update (isla_heap_dequeue st.mem st.openl).2.1 a
      { (isla_heap_dequeue st.mem st.openl).2.1 a with
        status := NodeStatus.closed },
    (isla_heap_dequeue st.mem st.openl).2.2, st.usedl⟩

/- ------------------------------------------------------------------ -/
/- Theorems -/
/- ------------------------------------------------------------------ -/

theorem lswap_length {α : Type} (l : List α) (i j : Nat) :
    (lswap l i j).length = l.length := by
  unfold lswap
  cases hi : l[i]? <;> cases hj : l[j]? <;> simp

theorem lswap_getElem?_left {α : Type} (l : List α) {i j : Nat}
    (hi : i < l.length) (hj : j < l.length) (hne : i ≠ j) :
    (lswap l i j)[i]? = l[j]? := by
  unfold lswap
  rw [List.getElem?_eq_getElem hi, List.getElem?_eq_getElem hj]
  rw [List.getElem?_set_ne (fun h => hne h.symm), List.getElem?_set_self hi]

theorem lswap_getElem?_right {α : Type} (l : List α) {i j : Nat}
    (hi : i < l.length) (hj : j < l.length) :
    (lswap l i j)[j]? = l[i]? := by
  unfold lswap
  rw [List.getElem?_eq_getElem hi, List.getElem?_eq_getElem hj,
    List.getElem?_set_self (by simpa using hj)]

theorem lswap_getElem?_other {α : Type} (l : List α) {i j k : Nat}
    (hki : k ≠ i) (hkj : k ≠ j) :
    (lswap l i j)[k]? = l[k]? := by
  unfold lswap
  cases hi : l[i]? <;> cases hj : l[j]? <;> try rfl
  rw [List.getElem?_set_ne (fun h => hkj h.symm),
    List.getElem?_set_ne (fun h => hki h.symm)]

theorem reverseLoop_length {α : Type} (half : Nat) (l : List α) (i : Nat) :
    (reverseLoop half l i).length = l.length := by
  refine reverseLoop.induct half
    (fun l i => (reverseLoop half l i).length = l.length) ?_ ?_ l i
  · intro l i hlt ih
    rw [reverseLoop, if_pos hlt]; rw [ih, lswap_length]
  · intro l i hlt
    rw [reverseLoop, if_neg hlt]

theorem getElem_cons_set_perm {α : Type} (t : List α) :
    ∀ (k : Nat) (hk : k < t.length) (a : α), (t.get ⟨k, hk⟩ :: t.set k a).Perm (a :: t) := by
  induction t with
  | nil => intro k hk a; exact absurd hk (by simp)
  | cons b t2 ih =>
    intro k hk a
    match k with
    | 0 => simpa using List.Perm.swap a b t2
    | m + 1 =>
      have hm : m < t2.length := by simpa using hk
      have e1 : (b :: t2).get ⟨m + 1, hk⟩ :: (b :: t2).set (m + 1) a
          = t2.get ⟨m, hm⟩ :: b :: t2.set m a := by simp
      rw [e1]
      exact (List.Perm.swap b _ _).trans (((ih m hm a).cons b).trans
        (List.Perm.swap a b t2))

theorem set_set_perm {α : Type} (l : List α) :
    ∀ (i j : Nat) (hi : i < l.length) (hj : j < l.length),
    ((l.set i (l.get ⟨j, hj⟩)).set j (l.get ⟨i, hi⟩)).Perm l := by
  induction l with
  | nil => intro i j hi hj; exact absurd hi (by simp)
  | cons hd t ih =>
    intro i j hi hj
    match i, j with
    | 0, 0 => simp
    | 0, k + 1 =>
      have hk : k < t.length := by simpa using hj
      simpa using getElem_cons_set_perm t k hk hd
    | s + 1, 0 =>
      have hs : s < t.length := by simpa using hi
      simpa using getElem_cons_set_perm t s hs hd
    | s + 1, k + 1 =>
      have hs : s < t.length := by simpa using hi
      have hk : k < t.length := by simpa using hj
      simpa using (ih s k hs hk).cons hd

theorem lswap_perm {α : Type} (l : List α) (i j : Nat) :
    (lswap l i j).Perm l := by
  unfold lswap
  cases hi : l[i]? with
  | none => exact List.Perm.refl l
  | some a =>
    cases hj : l[j]? with
    | none => exact List.Perm.refl l
    | some b =>
      have hi2 := hi
      have hj2 := hj
      rw [List.getElem?_eq_some_iff] at hi2 hj2
      obtain ⟨hilt, ha⟩ := hi2
      obtain ⟨hjlt, hb⟩ := hj2
      subst ha
      subst hb
      exact set_set_perm l i j hilt hjlt

theorem heapSwap_snd (s : Mem) (l : List NodeId) (i j : Nat) :
    (heapSwap s l i j).2 = lswap l i j := by
  unfold heapSwap lswap
  cases hi : l[i]? <;> cases hj : l[j]? <;> rfl

theorem heapSwap_snd_length (s : Mem) (l : List NodeId) (i j : Nat) :
    (heapSwap s l i j).2.length = l.length := by
  rw [heapSwap_snd, lswap_length]

/-- The heap swap only writes index fields: g, f, status, parent of every
node are untouched. -/
theorem heapSwap_core (s : Mem) (l : List NodeId) (i j : Nat) (x : NodeId) :
    ((heapSwap s l i j).1 x).g = (s x).g ∧
    ((heapSwap s l i j).1 x).f = (s x).f ∧
    ((heapSwap s l i j).1 x).status = (s x).status ∧
    ((heapSwap s l i j).1 x).parent = (s x).parent := by
  unfold heapSwap
  cases hi : l[i]? with
  | none => exact ⟨rfl, rfl, rfl, rfl⟩
  | some a =>
    cases hj : l[j]? with
    | none => exact ⟨rfl, rfl, rfl, rfl⟩
    | some b =>
      simp only [Function.update]
      by_cases hxa : x = a <;> by_cases hxb : x = b <;> by_cases hab : b = a <;>
        simp_all

theorem sameCore_refl (s : Mem) : SameCore s s := fun _ => ⟨rfl, rfl, rfl, rfl⟩

theorem sameCore_trans {s t u : Mem} (h1 : SameCore s t) (h2 : SameCore t u) :
    SameCore s u := by
  intro x
  obtain ⟨a1, b1, c1, d1⟩ := h1 x
  obtain ⟨a2, b2, c2, d2⟩ := h2 x
  exact ⟨a2.trans a1, b2.trans b1, c2.trans c1, d2.trans d1⟩

theorem heapSwap_sameCore (s : Mem) (l : List NodeId) (i j : Nat) :
    SameCore s (heapSwap s l i j).1 := fun x => heapSwap_core s l i j x

theorem sameCore_f {s t : Mem} (h : SameCore s t) :
    (fun x => (t x).f) = fun x => (s x).f := by
  funext x
  exact (h x).2.1

theorem heapSiftup_bridge (s : Mem) (l : List NodeId) (i : Nat) :
    (heapSiftup s l i).1.2 = (siftupP (fun x => (s x).f) l i).1 ∧
    (heapSiftup s l i).2 = (siftupP (fun x => (s x).f) l i).2 ∧
    SameCore s (heapSiftup s l i).1.1 := by
  induction s, l, i using heapSiftup.induct with
  | case1 s l i h ih =>
    rw [heapSiftup, if_pos h, siftupP, if_pos (by exact h)]
    obtain ⟨h1, h2, h3⟩ := ih
    have hsw := heapSwap_sameCore s l i ((i - 1) / 2)
    refine ⟨?_, ?_, sameCore_trans hsw h3⟩
    · rw [h1, sameCore_f hsw, heapSwap_snd]
    · rw [h2, sameCore_f hsw, heapSwap_snd]
  | case2 s l i h =>
    rw [heapSiftup, if_neg h, siftupP, if_neg (by exact h)]
    exact ⟨rfl, rfl, sameCore_refl s⟩

theorem heapSiftdownFloyd_bridge (s : Mem) (l : List NodeId) (i : Nat) :
    (heapSiftdownFloyd s l i).2 = floydP (fun x => (s x).f) l i ∧
    SameCore s (heapSiftdownFloyd s l i).1 := by
  induction s, l, i using heapSiftdownFloyd.induct with
  | case1 s l i h ih =>
    rw [heapSiftdownFloyd, dif_pos h, floydP, dif_pos (by exact h)]
    obtain ⟨h1, h2⟩ := ih
    have hsw := heapSwap_sameCore s l i (higherChild s l i)
    refine ⟨?_, sameCore_trans hsw h2⟩
    rw [h1, sameCore_f hsw, heapSwap_snd]
    rfl
  | case2 s l i h =>
    rw [heapSiftdownFloyd, dif_neg h, floydP, dif_neg (by exact h)]
    obtain ⟨h1, _, h3⟩ := heapSiftup_bridge s l i
    exact ⟨h1, h3⟩

theorem heapSiftdown_sameCore (s : Mem) (l : List NodeId) (i : Nat) :
    SameCore s (heapSiftdown s l i).1 := by
  induction s, l, i using heapSiftdown.induct with
  | case1 s l i h hbr =>
    rw [heapSiftdown, dif_pos h, if_pos hbr]
    exact sameCore_refl s
  | case2 s l i h hbr ih =>
    rw [heapSiftdown, dif_pos h, if_neg hbr]
    exact sameCore_trans (heapSwap_sameCore s l i _) ih
  | case3 s l i h =>
    rw [heapSiftdown, dif_neg h]
    exact sameCore_refl s

theorem heapSiftdown_perm (s : Mem) (l : List NodeId) (i : Nat) :
    (heapSiftdown s l i).2.Perm l := by
  induction s, l, i using heapSiftdown.induct with
  | case1 s l i h hbr =>
    rw [heapSiftdown, dif_pos h, if_pos hbr]
  | case2 s l i h hbr ih =>
    rw [heapSiftdown, dif_pos h, if_neg hbr]
    refine ih.trans ?_
    rw [heapSwap_snd]
    exact lswap_perm l i _
  | case3 s l i h =>
    rw [heapSiftdown, dif_neg h]

theorem siftupP_perm (c : NodeId → Int) (l : List NodeId) (i : Nat) :
    (siftupP c l i).1.Perm l := by
  refine siftupP.induct c (fun l i => (siftupP c l i).1.Perm l) ?_ ?_ l i
  · intro l i h ih
    rw [siftupP, if_pos h]
    exact ih.trans (lswap_perm l i _)
  · intro l i h
    rw [siftupP, if_neg h]

theorem floydP_perm (c : NodeId → Int) (l : List NodeId) (i : Nat) :
    (floydP c l i).Perm l := by
  refine floydP.induct c (fun l i => (floydP c l i).Perm l) ?_ ?_ l i
  · intro l i h ih
    rw [floydP, dif_pos h]
    exact ih.trans (lswap_perm l i _)
  · intro l i h
    rw [floydP, dif_neg h]
    exact siftupP_perm c l i

theorem reverseLoop_reverses {α : Type} (lref : List α) (half : Nat)
    (l : List α) (i : Nat) :
    half = lref.length / 2 → l.length = lref.length → i ≤ half →
    (∀ j, j < lref.length → j < i → l[j]? = lref[lref.length - 1 - j]?) →
    (∀ j, j < lref.length → lref.length - i ≤ j →
      l[j]? = lref[lref.length - 1 - j]?) →
    (∀ j, j < lref.length → i ≤ j → j < lref.length - i → l[j]? = lref[j]?) →
    reverseLoop half l i = lref.reverse := by
  refine reverseLoop.induct half
    (fun l i =>
      half = lref.length / 2 → l.length = lref.length → i ≤ half →
      (∀ j, j < lref.length → j < i → l[j]? = lref[lref.length - 1 - j]?) →
      (∀ j, j < lref.length → lref.length - i ≤ j →
        l[j]? = lref[lref.length - 1 - j]?) →
      (∀ j, j < lref.length → i ≤ j → j < lref.length - i → l[j]? = lref[j]?) →
      reverseLoop half l i = lref.reverse) ?_ ?_ l i
  · intro l i hlt ih
    intro hhalf hlen hle hlo hhi hmid
    rw [reverseLoop, if_pos hlt]
    have hne : i ≠ l.length - i - 1 := by omega
    have hilt : i < l.length := by omega
    have hmlt : l.length - i - 1 < l.length := by omega
    apply ih hhalf (by rw [lswap_length]; exact hlen) (by omega)
    · intro j hj hji
      by_cases hjeq : j = i
      · subst hjeq
        rw [lswap_getElem?_left l hilt hmlt hne, hlen]
        rw [hmid (lref.length - j - 1) (by omega) (by omega) (by omega)]
        congr 1
        omega
      · rw [lswap_getElem?_other l (by omega) (by omega)]
        exact hlo j hj (by omega)
    · intro j hj hji
      by_cases hjeq : j = lref.length - 1 - i
      · subst hjeq
        have hrw : lref.length - 1 - i = l.length - i - 1 := by omega
        rw [hrw, lswap_getElem?_right l hilt hmlt]
        rw [hmid i (by omega) (by omega) (by omega)]
        congr 1
        omega
      · rw [lswap_getElem?_other l (by omega) (by omega)]
        exact hhi j hj (by omega)
    · intro j hj hji hjlt
      rw [lswap_getElem?_other l (by omega) (by omega)]
      exact hmid j hj (by omega) (by omega)
  · intro l i hlt
    intro hhalf hlen hle hlo hhi hmid
    rw [reverseLoop, if_neg hlt]
    apply List.ext_getElem?
    intro j
    by_cases hj : j < lref.length
    · rw [List.getElem?_reverse hj]
      by_cases hjlo : j < i
      · exact hlo j hj hjlo
      · by_cases hjhi : lref.length - i ≤ j
        · exact hhi j hj hjhi
        · have hmidj : lref.length - 1 - j = j := by omega
          rw [hmidj]
          exact hmid j hj (by omega) (by omega)
    · rw [List.getElem?_eq_none (by omega),
        List.getElem?_eq_none (by rw [List.length_reverse]; omega)]

theorem keyAt_lswap_left {c : NodeId → Int} {l : List NodeId} {i j : Nat}
    (hi : i < l.length) (hj : j < l.length) (hne : i ≠ j) :
    keyAt c (lswap l i j) i = keyAt c l j := by
  unfold keyAt
  rw [List.getD_eq_getElem?_getD, List.getD_eq_getElem?_getD,
    lswap_getElem?_left l hi hj hne]

theorem keyAt_lswap_right {c : NodeId → Int} {l : List NodeId} {i j : Nat}
    (hi : i < l.length) (hj : j < l.length) :
    keyAt c (lswap l i j) j = keyAt c l i := by
  unfold keyAt
  rw [List.getD_eq_getElem?_getD, List.getD_eq_getElem?_getD,
    lswap_getElem?_right l hi hj]

theorem keyAt_lswap_other {c : NodeId → Int} {l : List NodeId} {i j k : Nat}
    (hki : k ≠ i) (hkj : k ≠ j) :
    keyAt c (lswap l i j) k = keyAt c l k := by
  unfold keyAt
  rw [List.getD_eq_getElem?_getD, List.getD_eq_getElem?_getD,
    lswap_getElem?_other l hki hkj]

theorem keyAt_dropLast {c : NodeId → Int} {l : List NodeId} {k : Nat}
    (hk : k < l.length - 1) :
    keyAt c l.dropLast k = keyAt c l k := by
  unfold keyAt
  rw [List.getD_eq_getElem?_getD, List.getD_eq_getElem?_getD,
    List.dropLast_eq_take, List.getElem?_take, if_pos hk]

theorem keyAt_of_lt (c : NodeId → Int) (l : List NodeId) (n : Nat)
    (hn : n < l.length) : keyAt c l n = c (l.get ⟨n, hn⟩) := by
  unfold keyAt
  rw [List.getD_eq_getElem?_getD, List.getElem?_eq_getElem hn]
  rfl

/-- In a heap every slot is at least the root slot. -/
theorem isHeap_le_root (c : NodeId → Int) (l : List NodeId) (hH : IsHeap c l) :
    ∀ j, j < l.length → keyAt c l 0 ≤ keyAt c l j := by
  intro j
  induction j using Nat.strong_induction_on with
  | _ j ih =>
    intro hj
    by_cases hj0 : 0 < j
    · exact le_trans (ih ((j - 1) / 2) (by omega) (by omega)) (hH j hj hj0)
    · have hz : j = 0 := by omega
      subst hz
      exact le_refl _

/-- Sift-up correctness: from a state where the only possible violations
involve slot q upward, the sift-up pass restores the full heap property. -/
theorem siftupP_heap (c : NodeId → Int) (l : List NodeId) (q : Nat) :
    q < l.length → UpInv c l q → IsHeap c (siftupP c l q).1 := by
  refine siftupP.induct c
    (fun l q => q < l.length → UpInv c l q → IsHeap c (siftupP c l q).1)
    ?_ ?_ l q
  · intro l q h ih hq hU
    rw [siftupP, if_pos h]
    obtain ⟨hq0, hqp⟩ := h
    have hplt : (q - 1) / 2 < l.length := by omega
    have hpq : q ≠ (q - 1) / 2 := by omega
    apply ih
    · rw [lswap_length]; omega
    · constructor
      · intro j hj hj0 hjp
        rw [lswap_length] at hj
        by_cases hjq : j = q
        · rw [hjq, keyAt_lswap_right hq hplt, keyAt_lswap_left hq hplt hpq]
          exact le_of_lt hqp
        · by_cases hparq : (j - 1) / 2 = q
          · rw [hparq, keyAt_lswap_left hq hplt hpq,
              keyAt_lswap_other hjq hjp]
            exact hU.2 j hj hj0 hparq (by omega)
          · by_cases hparp : (j - 1) / 2 = (q - 1) / 2
            · rw [hparp, keyAt_lswap_right hq hplt,
                keyAt_lswap_other hjq hjp]
              have h1 := hU.1 j hj hj0 hjq
              rw [hparp] at h1
              exact le_trans (le_of_lt hqp) h1
            · rw [keyAt_lswap_other hparq hparp,
                keyAt_lswap_other hjq hjp]
              exact hU.1 j hj hj0 hjq
      · intro j hj hj0 hparj hp0
        rw [lswap_length] at hj
        rw [keyAt_lswap_other (show ((q - 1) / 2 - 1) / 2 ≠ q by omega)
          (show ((q - 1) / 2 - 1) / 2 ≠ (q - 1) / 2 by omega)]
        by_cases hjq : j = q
        · rw [hjq, keyAt_lswap_left hq hplt hpq]
          exact hU.1 ((q - 1) / 2) hplt (by omega) (by omega)
        · rw [keyAt_lswap_other hjq (show j ≠ (q - 1) / 2 by omega)]
          have h1 := hU.1 j hj hj0 hjq
          rw [hparj] at h1
          exact le_trans (hU.1 ((q - 1) / 2) hplt (by omega) (by omega)) h1
  · intro l q h hq hU
    rw [siftupP, if_neg h]
    intro j hj hj0
    by_cases hjq : j = q
    · subst hjq
      have hk : ¬ keyAt c l j < keyAt c l ((j - 1) / 2) := fun hk => h ⟨hj0, hk⟩
      exact le_of_not_lt hk
    · exact hU.1 j hj hj0 hjq

theorem higherChildP_bounds (c : NodeId → Int) (l : List NodeId) (i : Nat)
    (h : 2 * i + 1 < l.length) :
    i < higherChildP c l i ∧ higherChildP c l i < l.length ∧
      (higherChildP c l i - 1) / 2 = i := by
  unfold higherChildP
  split
  · rename_i hcase
    exact ⟨by omega, hcase.1, by omega⟩
  · exact ⟨by omega, h, by omega⟩

theorem higherChildP_min (c : NodeId → Int) (l : List NodeId) (i : Nat)
    (h : 2 * i + 1 < l.length) :
    ∀ j, j < l.length → (j - 1) / 2 = i → 0 < j →
    keyAt c l (higherChildP c l i) ≤ keyAt c l j := by
  intro j hj hpar hj0
  have hj12 : j = 2 * i + 1 ∨ j = 2 * i + 2 := by omega
  unfold higherChildP
  split
  · rename_i hcase
    rcases hj12 with h1 | h2
    · subst h1; exact le_of_lt hcase.2
    · subst h2; exact le_refl _
  · rename_i hcase
    rcases hj12 with h1 | h2
    · subst h1; exact le_refl _
    · subst h2
      exact le_of_not_lt (fun hk => hcase ⟨hj, hk⟩)

/-- Floyd sift-down correctness: from a state where the only possible
violations are on edges incident to slot p (with p's children still at
least p's parent), the descend-to-leaf walk followed by the final sift-up
pass restores the full heap property. -/
theorem floydP_heap (c : NodeId → Int) (l : List NodeId) (p : Nat) :
    p < l.length → DownInv c l p → IsHeap c (floydP c l p) := by
  refine floydP.induct c
    (fun l p => p < l.length → DownInv c l p → IsHeap c (floydP c l p))
    ?_ ?_ l p
  · intro l p h ih hp hD
    rw [floydP, dif_pos h]
    obtain ⟨hgt, hlt, hpar⟩ := higherChildP_bounds c l p h
    have hne : p ≠ higherChildP c l p := by omega
    apply ih
    · rw [lswap_length]; exact hlt
    · constructor
      · intro j hj hj0 hjhc hparhc
        rw [lswap_length] at hj
        by_cases hjp : j = p
        · subst hjp
          rw [keyAt_lswap_other (show (j - 1) / 2 ≠ j by omega)
              (show (j - 1) / 2 ≠ higherChildP c l j by omega),
            keyAt_lswap_left hp hlt hne]
          exact hD.2 (higherChildP c l j) hlt (by omega) hpar (by omega)
        · by_cases hparp : (j - 1) / 2 = p
          · rw [hparp, keyAt_lswap_left hp hlt hne,
              keyAt_lswap_other hjp hjhc]
            exact higherChildP_min c l p h j hj hparp hj0
          · rw [keyAt_lswap_other hparp hparhc,
              keyAt_lswap_other hjp hjhc]
            exact hD.1 j hj hj0 hjp hparp
      · intro j hj hj0 hparj hhc0
        rw [lswap_length] at hj
        have hjgt : higherChildP c l p < j := by omega
        rw [hpar]
        rw [keyAt_lswap_left hp hlt hne,
          keyAt_lswap_other (show j ≠ p by omega) (show j ≠ higherChildP c l p by omega)]
        have h1 := hD.1 j hj hj0 (by omega) (by omega)
        rw [hparj] at h1
        exact h1
  · intro l p h hp hD
    rw [floydP, dif_neg h]
    apply siftupP_heap c l p hp
    constructor
    · intro j hj hj0 hjp
      exact hD.1 j hj hj0 hjp (by omega)
    · intro j hj hj0 hparj hq0
      exact absurd hparj (by omega)

/-- After swapping the root with the last slot and dropping it, the only
possibly violated heap edges are those out of the root. -/
theorem dequeue_downInv (c : NodeId → Int) (l : List NodeId)
    (h2 : 2 ≤ l.length) (hH : IsHeap c l) :
    DownInv c ((lswap l 0 (l.length - 1)).dropLast) 0 := by
  constructor
  · intro j hj hj0 hjne hparne
    have hlen : ((lswap l 0 (l.length - 1)).dropLast).length = l.length - 1 := by
      rw [List.length_dropLast, lswap_length]
    rw [hlen] at hj
    rw [keyAt_dropLast (by rw [lswap_length]; omega),
      keyAt_dropLast (by rw [lswap_length]; omega)]
    rw [keyAt_lswap_other hparne (show (j - 1) / 2 ≠ l.length - 1 by omega),
      keyAt_lswap_other (show j ≠ 0 by omega) (show j ≠ l.length - 1 by omega)]
    exact hH j (by omega) hj0
  · intro j hj hj0 hpar hp0
    exact absurd rfl hp0

theorem getElem_eq_of_getElem? {α : Type} {l1 l2 : List α} {i j : Nat}
    (h1 : i < l1.length) (h2 : j < l2.length) (h : l1[i]? = l2[j]?) :
    l1.get ⟨i, h1⟩ = l2.get ⟨j, h2⟩ := by
  rw [List.getElem?_eq_getElem h1, List.getElem?_eq_getElem h2] at h
  simpa using h

/-- C6: on a state satisfying the min-heap property on f costs, dequeue
returns NULL on the empty heap; pops a singleton directly; and otherwise
removes and returns the root — which is minimal among all enqueued nodes —
leaving the remaining elements (a permutation of the rest) a valid
min-heap. -/
theorem dequeue_correct (s : Mem) (l : List NodeId)
    (hH : IsHeap (fun x => (s x).f) l) :
    (l = [] → isla_heap_dequeue s l = (none, s, l)) ∧
    (∀ x, l = [x] → isla_heap_dequeue s l = (some x, s, [])) ∧
    (2 ≤ l.length →
      (isla_heap_dequeue s l).1 = some (l.getD 0 0) ∧
      (∀ y ∈ l, (s (l.getD 0 0)).f ≤ (s y).f) ∧
      IsHeap (fun x => ((isla_heap_dequeue s l).2.1 x).f)
        (isla_heap_dequeue s l).2.2 ∧
      ((l.getD 0 0) :: (isla_heap_dequeue s l).2.2).Perm l) := by
  refine ⟨?_, ?_, ?_⟩
  · intro h; subst h; rfl
  · intro x h; subst h; rfl
  · intro h2
    rcases l with _ | ⟨x, _ | ⟨y, t⟩⟩
    · simp at h2
    · simp at h2
    · have hdq : isla_heap_dequeue s (x :: y :: t) =
        (some x,
          (heapSiftdownFloyd (heapSwap s (x :: y :: t) 0 ((x :: y :: t).length - 1)).1
            (heapSwap s (x :: y :: t) 0 ((x :: y :: t).length - 1)).2.dropLast 0).1,
          (heapSiftdownFloyd (heapSwap s (x :: y :: t) 0 ((x :: y :: t).length - 1)).1
            (heapSwap s (x :: y :: t) 0 ((x :: y :: t).length - 1)).2.dropLast 0).2) := rfl
      have hswC := heapSwap_sameCore s (x :: y :: t) 0 ((x :: y :: t).length - 1)
      obtain ⟨hb1, hb2⟩ := heapSiftdownFloyd_bridge
        (heapSwap s (x :: y :: t) 0 ((x :: y :: t).length - 1)).1
        (heapSwap s (x :: y :: t) 0 ((x :: y :: t).length - 1)).2.dropLast 0
      have hcore : SameCore s
          (heapSiftdownFloyd (heapSwap s (x :: y :: t) 0 ((x :: y :: t).length - 1)).1
            (heapSwap s (x :: y :: t) 0 ((x :: y :: t).length - 1)).2.dropLast 0).1 :=
        sameCore_trans hswC hb2
      have hlen2 : 2 ≤ (x :: y :: t).length := by simp
      refine ⟨by simp [hdq], ?_, ?_, ?_⟩
      · intro z hz
        obtain ⟨n, hn, rfl⟩ := List.mem_iff_getElem.mp hz
        have hroot := isHeap_le_root (fun w => (s w).f) (x :: y :: t) hH n hn
        rw [keyAt_of_lt (fun w => (s w).f) (x :: y :: t) n hn] at hroot
        exact hroot
      · rw [hdq, sameCore_f hcore, hb1, sameCore_f hswC, heapSwap_snd]
        apply floydP_heap
        · rw [List.length_dropLast, lswap_length]
          omega
        · exact dequeue_downInv (fun w => (s w).f) (x :: y :: t) hlen2 hH
      · rw [hdq, hb1, sameCore_f hswC, heapSwap_snd]
        have hMne : lswap (x :: y :: t) 0 ((x :: y :: t).length - 1) ≠ [] := by
          intro hcon
          have := lswap_length (x :: y :: t) 0 ((x :: y :: t).length - 1)
          rw [hcon] at this
          simp at this
        have hsplit := List.dropLast_append_getLast hMne
        have hlast : (lswap (x :: y :: t) 0 ((x :: y :: t).length - 1)).getLast hMne
            = x := by
          rw [List.getLast_eq_getElem]
          have hq := lswap_getElem?_right (x :: y :: t)
            (show (0 : Nat) < (x :: y :: t).length by simp)
            (show (x :: y :: t).length - 1 < (x :: y :: t).length by simp)
          have := getElem_eq_of_getElem?
            (show (x :: y :: t).length - 1 <
              (lswap (x :: y :: t) 0 ((x :: y :: t).length - 1)).length by
                rw [lswap_length]; simp)
            (show (0 : Nat) < (x :: y :: t).length by simp) hq
          simpa [lswap_length] using this
        rw [hlast] at hsplit
        have hperm1 : ((x :: y :: t).getD 0 0 ::
            floydP (fun w => (s w).f)
              ((lswap (x :: y :: t) 0 ((x :: y :: t).length - 1)).dropLast) 0).Perm
            ((x :: y :: t).getD 0 0 ::
              (lswap (x :: y :: t) 0 ((x :: y :: t).length - 1)).dropLast) :=
          (floydP_perm _ _ _).cons _
        refine hperm1.trans ?_
        have hgd : (x :: y :: t).getD 0 0 = x := rfl
        rw [hgd]
        refine ((List.perm_append_singleton x _).symm).trans ?_
        rw [hsplit]
        exact lswap_perm _ _ _

theorem isla_reverse_path_eq_reverse {α : Type} (l : List α) :
    isla_reverse_path l = l.reverse := by
  unfold isla_reverse_path
  exact reverseLoop_reverses l (l.length / 2) l 0 rfl rfl (by omega)
    (fun j hj hji => by omega)
    (fun j hj hji => by omega)
    (fun j hj hji hjlt => rfl)

/-- C9: reversePath reverses the element order of any path, and applying
it twice restores the original order (involution). -/
theorem reverse_path_involution {α : Type} (l : List α) :
    isla_reverse_path l = l.reverse ∧
    isla_reverse_path (isla_reverse_path l) = l := by
  refine ⟨isla_reverse_path_eq_reverse l, ?_⟩
  rw [isla_reverse_path_eq_reverse, isla_reverse_path_eq_reverse,
    List.reverse_reverse]

/-- C1: counterexample — in the relaxation the engine computes the
neighbor's f cost as g + estimate_cost(current, finish), not
g + estimate_cost(neighbor, finish): after the expansion of node 0 in the
search towards 2, node 1 carries g = 7 and f = 12 = g + estimate(0, 2),
while the value the claim requires, g + estimate(1, 2), is 7. -/
theorem relaxation_fcost_divergence :
    (c1state.mem 1).g = 7 ∧
    (c1state.mem 1).f = (c1state.mem 1).g + onePathProps.estimateCost 0 2 ∧
    (c1state.mem 1).f ≠ (c1state.mem 1).g + onePathProps.estimateCost 1 2 := by
  simp [c1state, initialState, stepIter, step, relaxOne, isla_heap_dequeue,
    isla_heap_enqueue, isla_heap_update, heapSiftup, heapSiftdownFloyd,
    heapSiftdown, heapSwap, higherChild, pathPush, lswap, keyAt,
    Function.update, memInit, Node.init, onePathProps]

/-- C2: counterexample — after a successful search 0 -> 1 every node of
the touched ledger (node 1) is reset, but the start node is left CLOSED
with its seeded f cost: the engine never records the start node in the
touched ledger, so cleanup misses it. -/
theorem cleanup_misses_start_node :
    (isla_find_path (some 0) (some 1) (some reachProps) memInit 5).status
      = RunStatus.ok ∧
    (isla_find_path (some 0) (some 1) (some reachProps) memInit 5).mem 1
      = Node.init ∧
    ((isla_find_path (some 0) (some 1) (some reachProps) memInit 5).mem 0).status
      = NodeStatus.closed ∧
    ((isla_find_path (some 0) (some 1) (some reachProps) memInit 5).mem 0).f
      = 5 ∧
    (isla_find_path (some 0) (some 1) (some reachProps) memInit 5).mem 0
      ≠ Node.init := by
  simp [isla_find_path, initialState, findLoop, step, relaxOne,
    isla_heap_dequeue, isla_heap_enqueue, isla_heap_update, heapSiftup,
    heapSiftdownFloyd, heapSiftdown, heapSwap, higherChild, pathPush, lswap,
    keyAt, Function.update, memInit, Node.init, reachProps, cleanupNodes,
    isla_build_path]

/-- C3: counterexample — when node 0's two neighbors are discovered, the
engine heap-enqueues them into the touched ledger (reordering it to
[2, 1]) and plainly appends them to the open list, so the open list
[1, 2] violates the min-heap property on f (10 at the root above 3) and
node 1's recorded heap position (1) differs from its open-list slot (0). -/
theorem open_list_not_heap_on_discovery :
    c3state.openl = [1, 2] ∧
    c3state.usedl = [2, 1] ∧
    (c3state.mem 1).f = 10 ∧ (c3state.mem 2).f = 3 ∧
    ¬ IsHeap (fun x => (c3state.mem x).f) c3state.openl ∧
    (c3state.mem 1).index = 1 ∧ (c3state.mem 2).index = 0 := by
  have hall : c3state.openl = [1, 2] ∧ c3state.usedl = [2, 1] ∧
      (c3state.mem 1).f = 10 ∧ (c3state.mem 2).f = 3 ∧
      (c3state.mem 1).index = 1 ∧ (c3state.mem 2).index = 0 := by
    simp [c3state, initialState, stepIter, step, relaxOne, isla_heap_dequeue,
      isla_heap_enqueue, isla_heap_update, heapSiftup, heapSiftdownFloyd,
      heapSiftdown, heapSwap, higherChild, pathPush, lswap, keyAt,
      Function.update, memInit, Node.init, twoNeighborProps]
  obtain ⟨h1, h2, h3, h4, h5, h6⟩ := hall
  refine ⟨h1, h2, h3, h4, ?_, h5, h6⟩
  intro hH
  have hcon := hH 1 (by rw [h1]; simp) (by omega)
  rw [h1] at hcon
  simp [keyAt] at hcon
  rw [h3, h4] at hcon
  omega

/-- C4: counterexample — the caller-supplied goal predicate accepts node 1
(different from finish = 5), yet the engine reconstructs the path starting
from finish: the result is Found with path [5], not a path starting at the
matched node 1. -/
theorem path_built_from_finish_not_matched_node :
    (match predicateProps.isFinishNode with
      | some pr => pr 1 | none => false) = true ∧
    (isla_find_path (some 0) (some 5) (some predicateProps) memInit 6).status
      = RunStatus.ok ∧
    (isla_find_path (some 0) (some 5) (some predicateProps) memInit 6).path
      = some [5] ∧
    (5 : NodeId) ≠ 1 := by
  simp [isla_find_path, initialState, findLoop, step, relaxOne,
    isla_heap_dequeue, isla_heap_enqueue, isla_heap_update, heapSiftup,
    heapSiftdownFloyd, heapSiftdown, heapSwap, higherChild, pathPush, lswap,
    keyAt, Function.update, memInit, Node.init, predicateProps, cleanupNodes,
    isla_build_path]

theorem heapSiftup_perm (s : Mem) (l : List NodeId) (i : Nat) :
    (heapSiftup s l i).1.2.Perm l := by
  rw [(heapSiftup_bridge s l i).1]
  exact siftupP_perm _ _ _

theorem heapSiftdownFloyd_perm (s : Mem) (l : List NodeId) (i : Nat) :
    (heapSiftdownFloyd s l i).2.Perm l := by
  rw [(heapSiftdownFloyd_bridge s l i).1]
  exact floydP_perm _ _ _

theorem isla_heap_update_sameCore (s : Mem) (l : List NodeId) (x : NodeId) :
    SameCore s (isla_heap_update s l x).1 := by
  unfold isla_heap_update
  exact sameCore_trans (heapSiftup_bridge s l (s x).index).2.2
    (heapSiftdown_sameCore _ _ _)

theorem isla_heap_update_perm (s : Mem) (l : List NodeId) (x : NodeId) :
    (isla_heap_update s l x).2.Perm l := by
  unfold isla_heap_update
  exact (heapSiftdown_perm _ _ _).trans (heapSiftup_perm s l (s x).index)

theorem isla_heap_enqueue_sameCore (s : Mem) (l : List NodeId) (x : NodeId) :
    SameCore s (isla_heap_enqueue s l x).1 := by
  unfold isla_heap_enqueue
  exact (heapSiftup_bridge s (pathPush l x) _).2.2

theorem isla_heap_dequeue_sameCore (s : Mem) (l : List NodeId) :
    SameCore s (isla_heap_dequeue s l).2.1 := by
  rcases l with _ | ⟨a, _ | ⟨b, t⟩⟩
  · exact sameCore_refl s
  · exact sameCore_refl s
  · exact sameCore_trans (heapSwap_sameCore s (a :: b :: t) 0 _)
      (heapSiftdownFloyd_bridge _ _ _).2

theorem isla_heap_dequeue_head (s : Mem) (a : NodeId) (rest : List NodeId) :
    (isla_heap_dequeue s (a :: rest)).1 = some a := by
  cases rest <;> rfl

theorem isla_heap_dequeue_mem (s : Mem) (l : List NodeId) (y : NodeId)
    (hy : y ∈ (isla_heap_dequeue s l).2.2) : y ∈ l := by
  rcases l with _ | ⟨a, _ | ⟨b, t⟩⟩
  · exact absurd hy (List.not_mem_nil y)
  · exact absurd hy (List.not_mem_nil y)
  · have hy2 : y ∈ (heapSwap s (a :: b :: t) 0 ((a :: b :: t).length - 1)).2.dropLast :=
      (heapSiftdownFloyd_perm _ _ _).mem_iff.mp hy
    have hy3 : y ∈ (heapSwap s (a :: b :: t) 0 ((a :: b :: t).length - 1)).2 :=
      List.dropLast_subset _ hy2
    rw [heapSwap_snd] at hy3
    exact (lswap_perm _ _ _).mem_iff.mp hy3

/-- One relaxation step never touches a CLOSED node other than through the
skip guard: its g, f, status, parent are unchanged and it is not appended
to the open list. -/
theorem relaxOne_closed (P : Props) (fi nd : NodeId) (st : SState)
    (nb x : NodeId) (hc : (st.mem x).status = NodeStatus.closed)
    (ho : x ∉ st.openl) :
    ((relaxOne P fi nd st nb).mem x).g = (st.mem x).g ∧
    ((relaxOne P fi nd st nb).mem x).f = (st.mem x).f ∧
    ((relaxOne P fi nd st nb).mem x).parent = (st.mem x).parent ∧
    ((relaxOne P fi nd st nb).mem x).status = NodeStatus.closed ∧
    x ∉ (relaxOne P fi nd st nb).openl := by
  unfold relaxOne
  by_cases h1 : (st.mem nb).status ≠ NodeStatus.closed
  · rw [if_pos h1]
    have hnbx : nb ≠ x := by
      intro he
      rw [he, hc] at h1
      exact h1 rfl
    by_cases h2 : (st.mem nb).status = NodeStatus.default ∨
        (st.mem nd).g + P.evalCost nd nb < (st.mem nb).g
    · rw [if_pos h2]
      have hm1 : ∀ v, Function.update st.mem nb v x = st.mem x :=
        fun v => Function.update_noteq (fun he => hnbx he.symm) v st.mem
      by_cases h3 : (st.mem nb).status = NodeStatus.opened
      · rw [if_pos h3]
        have hup := isla_heap_update_sameCore
          (Function.update st.mem nb
            { st.mem nb with
              g := (st.mem nd).g + P.evalCost nd nb
              f := (st.mem nd).g + P.evalCost nd nb + P.estimateCost nd fi
              parent := some nd }) st.openl nb
        obtain ⟨e1, e2, e3, e4⟩ := hup x
        refine ⟨by rw [e1, hm1], by rw [e2, hm1], by rw [e4, hm1], by rw [e3, hm1]; exact hc, ?_⟩
        intro hmem
        exact ho ((isla_heap_update_perm _ st.openl nb).mem_iff.mp hmem)
      · rw [if_neg h3]
        have hm2 : ∀ v w, Function.update (Function.update st.mem nb v) nb w x
            = st.mem x := fun v w => by
          rw [Function.update_noteq (fun he => hnbx he.symm),
            Function.update_noteq (fun he => hnbx he.symm)]
        have henq := isla_heap_enqueue_sameCore
          (Function.update
            (Function.update st.mem nb
              { st.mem nb with
                g := (st.mem nd).g + P.evalCost nd nb
                f := (st.mem nd).g + P.evalCost nd nb + P.estimateCost nd fi
                parent := some nd }) nb
            { Function.update st.mem nb
              { st.mem nb with
                g := (st.mem nd).g + P.evalCost nd nb
                f := (st.mem nd).g + P.evalCost nd nb + P.estimateCost nd fi
                parent := some nd } nb with status := NodeStatus.opened })
          st.usedl nb
        obtain ⟨e1, e2, e3, e4⟩ := henq x
        refine ⟨by rw [e1, hm2], by rw [e2, hm2], by rw [e4, hm2],
          by rw [e3, hm2]; exact hc, ?_⟩
        intro hmem
        rw [pathPush, List.mem_append] at hmem
        rcases hmem with hmem | hmem
        · exact ho hmem
        · simp at hmem
          exact hnbx hmem.symm
    · rw [if_neg h2]
      exact ⟨rfl, rfl, rfl, hc, ho⟩
  · rw [if_neg h1]
    exact ⟨rfl, rfl, rfl, hc, ho⟩

/-- The whole neighbor-relaxation fold preserves a CLOSED node's fields
and keeps it out of the open list. -/
theorem relax_fold_closed (P : Props) (fi nd : NodeId) :
    ∀ (ns : List NodeId) (st : SState) (x : NodeId),
    (st.mem x).status = NodeStatus.closed → x ∉ st.openl →
    (((ns.foldl (relaxOne P fi nd) st).mem x).g = (st.mem x).g ∧
     ((ns.foldl (relaxOne P fi nd) st).mem x).f = (st.mem x).f ∧
     ((ns.foldl (relaxOne P fi nd) st).mem x).parent = (st.mem x).parent ∧
     ((ns.foldl (relaxOne P fi nd) st).mem x).status = NodeStatus.closed ∧
     x ∉ (ns.foldl (relaxOne P fi nd) st).openl) := by
  intro ns
  induction ns with
  | nil => intro st x hc ho; exact ⟨rfl, rfl, rfl, hc, ho⟩
  | cons nb ns ih =>
    intro st x hc ho
    obtain ⟨e1, e2, e3, e4, e5⟩ := relaxOne_closed P fi nd st nb x hc ho
    obtain ⟨f1, f2, f3, f4, f5⟩ := ih (relaxOne P fi nd st nb) x e4 e5
    exact ⟨by rw [List.foldl_cons, f1, e1], by rw [List.foldl_cons, f2, e2],
      by rw [List.foldl_cons, f3, e3], by rw [List.foldl_cons]; exact f4,
      by rw [List.foldl_cons]; exact f5⟩

/-- The three possible shapes of one main-loop iteration: blocked on an
empty open list, or — after dequeuing the root a and closing it — a goal
exit (path built or build-fuel exhausted) or a continuation with all of
a's neighbors relaxed. -/
theorem step_cases (P : Props) (fi : NodeId) (bf : Nat) (st : SState) :
    step P fi bf st = StepRes.blockedRes st ∨
    (∃ a rest, st.openl = a :: rest ∧
      ((∃ p, step P fi bf st = StepRes.foundPath p (dequeuedState st a)) ∨
       step P fi bf st = StepRes.buildFail (dequeuedState st a) ∨
       step P fi bf st = StepRes.continued
         ((P.nextNeighbor a).foldl (relaxOne P fi a) (dequeuedState st a)))) := by
  obtain ⟨m, ol, ul⟩ := st
  rcases ol with _ | ⟨a, rest⟩
  · left
    rfl
  · right
    refine ⟨a, rest, rfl, ?_⟩
    have hhead := isla_heap_dequeue_head m a rest
    unfold step
    simp only []
    rw [hhead]
    simp only []
    rcases hgoal : ((a == fi) ||
        (match P.isFinishNode with | some pr => pr a | none => false) : Bool)
      with _ | _
    · rw [if_neg Bool.false_ne_true]
      right; right
      rfl
    · rw [if_pos rfl]
      split
      · left
        exact ⟨_, rfl⟩
      · right; left
        rfl

/-- The dequeue-and-close prefix of an iteration preserves a CLOSED node
that is out of the open heap. -/
theorem dequeuedState_closed (st : SState) (a : NodeId) (rest : List NodeId)
    (x : NodeId) (hopen : st.openl = a :: rest)
    (hc : (st.mem x).status = NodeStatus.closed) (ho : x ∉ st.openl) :
    ((dequeuedState st a).mem x).g = (st.mem x).g ∧
    ((dequeuedState st a).mem x).f = (st.mem x).f ∧
    ((dequeuedState st a).mem x).parent = (st.mem x).parent ∧
    ((dequeuedState st a).mem x).status = NodeStatus.closed ∧
    x ∉ (dequeuedState st a).openl := by
  have hax : a ≠ x := by
    intro he
    apply ho
    rw [hopen, he]
    exact List.mem_cons_self x rest
  obtain ⟨e1, e2, e3, e4⟩ := isla_heap_dequeue_sameCore st.mem st.openl x
  have hmx : (dequeuedState st a).mem x
      = (isla_heap_dequeue st.mem st.openl).2.1 x := by
    unfold dequeuedState
    exact Function.update_noteq (fun he => hax he.symm) _ _
  refine ⟨by rw [hmx, e1], by rw [hmx, e2], by rw [hmx, e4],
    by rw [hmx, e3]; exact hc, ?_⟩
  intro hmem
  exact ho (isla_heap_dequeue_mem st.mem st.openl x hmem)

/-- One main-loop iteration preserves a CLOSED node that is out of the
open heap: same g, f, parent, still CLOSED, still out. -/
theorem step_state_closed (P : Props) (fi : NodeId) (bf : Nat) (st : SState)
    (x : NodeId) (hc : (st.mem x).status = NodeStatus.closed)
    (ho : x ∉ st.openl) :
    ((stepIter P fi bf 1 st).mem x).g = (st.mem x).g ∧
    ((stepIter P fi bf 1 st).mem x).f = (st.mem x).f ∧
    ((stepIter P fi bf 1 st).mem x).parent = (st.mem x).parent ∧
    ((stepIter P fi bf 1 st).mem x).status = NodeStatus.closed ∧
    x ∉ (stepIter P fi bf 1 st).openl := by
  rcases step_cases P fi bf st with hs | ⟨a, rest, hopen, hs⟩
  · rw [stepIter, hs]
    exact ⟨rfl, rfl, rfl, hc, ho⟩
  · have hdq := dequeuedState_closed st a rest x hopen hc ho
    rcases hs with ⟨p, hs⟩ | hs | hs
    · rw [stepIter, hs]
      exact hdq
    · rw [stepIter, hs]
      exact hdq
    · rw [stepIter, hs]
      obtain ⟨e1, e2, e3, e4, e5⟩ := hdq
      obtain ⟨f1, f2, f3, f4, f5⟩ := relax_fold_closed P fi a
        (P.nextNeighbor a) (dequeuedState st a) x e4 e5
      have hz : ∀ s2 : SState, stepIter P fi bf 0 s2 = s2 := fun _ => rfl
      simp only []
      rw [hz]
      exact ⟨by rw [f1, e1], by rw [f2, e2], by rw [f3, e3], f4, f5⟩

/-- C7: once a node is CLOSED and no longer in the open heap, every
further main-loop iteration of the same search leaves its g, f and parent
unchanged, keeps it CLOSED, and never re-enters it into the open heap —
even if a cheaper path to it is later discovered (the relaxation skips
CLOSED neighbors). -/
theorem closed_never_reopened (P : Props) (fi : NodeId) (bf k : Nat) :
    ∀ (st : SState) (x : NodeId),
    (st.mem x).status = NodeStatus.closed → x ∉ st.openl →
    ((stepIter P fi bf k st).mem x).g = (st.mem x).g ∧
    ((stepIter P fi bf k st).mem x).f = (st.mem x).f ∧
    ((stepIter P fi bf k st).mem x).parent = (st.mem x).parent ∧
    ((stepIter P fi bf k st).mem x).status = NodeStatus.closed ∧
    x ∉ (stepIter P fi bf k st).openl := by
  induction k with
  | zero =>
    intro st x hc ho
    exact ⟨rfl, rfl, rfl, hc, ho⟩
  | succ n ih =>
    intro st x hc ho
    obtain ⟨e1, e2, e3, e4, e5⟩ := step_state_closed P fi bf st x hc ho
    cases hs : step P fi bf st with
    | continued s2 =>
      have h1 : stepIter P fi bf 1 st = s2 := by
        rw [stepIter, hs]
        rfl
      rw [h1] at e1 e2 e3 e4 e5
      obtain ⟨f1, f2, f3, f4, f5⟩ := ih s2 x e4 e5
      rw [stepIter, hs]
      exact ⟨by rw [f1, e1], by rw [f2, e2], by rw [f3, e3], f4, f5⟩
    | foundPath p s2 =>
      have h1 : stepIter P fi bf 1 st = s2 := by rw [stepIter, hs]
      rw [h1] at e1 e2 e3 e4 e5
      rw [stepIter, hs]
      exact ⟨e1, e2, e3, e4, e5⟩
    | blockedRes s2 =>
      have h1 : stepIter P fi bf 1 st = s2 := by rw [stepIter, hs]
      rw [h1] at e1 e2 e3 e4 e5
      rw [stepIter, hs]
      exact ⟨e1, e2, e3, e4, e5⟩
    | buildFail s2 =>
      have h1 : stepIter P fi bf 1 st = s2 := by rw [stepIter, hs]
      rw [h1] at e1 e2 e3 e4 e5
      rw [stepIter, hs]
      exact ⟨e1, e2, e3, e4, e5⟩

/-- Witness for the CLOSED-stability theorem at a concrete state. -/
theorem closed_never_reopened_witness :
    (closedDemoState.mem 0).status = NodeStatus.closed ∧
    (0 : NodeId) ∉ closedDemoState.openl ∧
    (((stepIter twoNeighborProps 9 5 4 closedDemoState).mem 0).g
        = (closedDemoState.mem 0).g ∧
      ((stepIter twoNeighborProps 9 5 4 closedDemoState).mem 0).f
        = (closedDemoState.mem 0).f ∧
      ((stepIter twoNeighborProps 9 5 4 closedDemoState).mem 0).parent
        = (closedDemoState.mem 0).parent ∧
      ((stepIter twoNeighborProps 9 5 4 closedDemoState).mem 0).status
        = NodeStatus.closed ∧
      (0 : NodeId) ∉ (stepIter twoNeighborProps 9 5 4 closedDemoState).openl) :=
  ⟨by decide, by decide,
    closed_never_reopened twoNeighborProps 9 5 4 closedDemoState 0
      (by decide) (by decide)⟩

/-- C8: calling findPath with an absent start, finish, or callback bundle
fails with BAD_ARGUMENTS, yields no path, and leaves the caller's node
storage untouched (no allocation is reachable on this exit in the
source: the check precedes the scratch acquisition). -/
theorem find_path_bad_arguments (start finish : Option NodeId)
    (props : Option Props) (mem : Mem) (fuel : Nat)
    (h : start = none ∨ finish = none ∨ props = none) :
    (isla_find_path start finish props mem fuel).status
      = RunStatus.badArguments ∧
    (isla_find_path start finish props mem fuel).path = none ∧
    (isla_find_path start finish props mem fuel).mem = mem := by
  rcases start with _ | st
  · exact ⟨rfl, rfl, rfl⟩
  · rcases finish with _ | fi
    · exact ⟨rfl, rfl, rfl⟩
    · rcases props with _ | P
      · exact ⟨rfl, rfl, rfl⟩
      · exfalso
        rcases h with h | h | h <;> exact Option.noConfusion h

/-- Witness for the invalid-arguments theorem at an absent start node. -/
theorem find_path_bad_arguments_witness :
    ((none : Option NodeId) = none ∨ (some 1 : Option NodeId) = none ∨
      (none : Option Props) = none) ∧
    ((isla_find_path none (some 1) none memInit 3).status
        = RunStatus.badArguments ∧
      (isla_find_path none (some 1) none memInit 3).path = none ∧
      (isla_find_path none (some 1) none memInit 3).mem = memInit) :=
  ⟨Or.inl rfl,
    find_path_bad_arguments none (some 1) none memInit 3 (Or.inl rfl)⟩

theorem relaxOne_cache_irrel (P : Props) (a b : Option (List NodeId))
    (fi nd : NodeId) (st : SState) (nb : NodeId) :
    relaxOne { P with cache_open := a, cache_used := b } fi nd st nb
      = relaxOne P fi nd st nb := rfl

theorem step_cache_irrel (P : Props) (a b : Option (List NodeId))
    (fi : NodeId) (bf : Nat) (st : SState) :
    step { P with cache_open := a, cache_used := b } fi bf st
      = step P fi bf st := by
  have hrel : ∀ nd, relaxOne { P with cache_open := a, cache_used := b } fi nd
      = relaxOne P fi nd :=
    fun nd => funext fun st2 => funext fun nb => rfl
  unfold step
  simp only [hrel]

theorem findLoop_cache_irrel (P : Props) (a b : Option (List NodeId))
    (fi : NodeId) :
    ∀ (fuel : Nat) (st : SState),
    findLoop { P with cache_open := a, cache_used := b } fi fuel st
      = findLoop P fi fuel st := by
  intro fuel
  induction fuel with
  | zero => intro st; rfl
  | succ n ih =>
    intro st
    rw [findLoop, findLoop, step_cache_irrel]
    cases step P fi (n + 1) st with
    | continued s2 =>
      simp only []
      exact ih s2
    | foundPath p s2 => rfl
    | blockedRes s2 => rfl
    | buildFail s2 => rfl

/-- Two valid-argument searches whose main loops run identically agree on
status, path and final node storage. -/
theorem find_path_some_congr (P Q : Props) (st fi : NodeId) (mem : Mem)
    (fuel : Nat)
    (hr : findLoop P fi fuel (initialState st fi P mem)
      = findLoop Q fi fuel (initialState st fi Q mem)) :
    (isla_find_path (some st) (some fi) (some P) mem fuel).status =
      (isla_find_path (some st) (some fi) (some Q) mem fuel).status ∧
    (isla_find_path (some st) (some fi) (some P) mem fuel).path =
      (isla_find_path (some st) (some fi) (some Q) mem fuel).path ∧
    (isla_find_path (some st) (some fi) (some P) mem fuel).mem =
      (isla_find_path (some st) (some fi) (some Q) mem fuel).mem := by
  unfold isla_find_path
  simp only []
  rw [hr]
  by_cases hfu : (findLoop Q fi fuel (initialState st fi Q mem)).1
      = RunStatus.outOfFuel
  · rw [if_pos hfu, if_pos hfu]
    exact ⟨rfl, rfl, rfl⟩
  · rw [if_neg hfu, if_neg hfu]
    exact ⟨rfl, rfl, rfl⟩

/-- A search given an empty cached open list and empty cached ledger
starts from the same loop state as a fresh-buffer search. -/
theorem initialState_empty_cache (P : Props) (st fi : NodeId) (mem : Mem)
    (hco : P.cache_open = some []) (hcu : P.cache_used = some []) :
    initialState st fi P mem
      = initialState st fi
          { P with cache_open := none, cache_used := none } mem := by
  unfold initialState
  rw [hco, hcu]
  rfl

/-- An uncached search (one or both cache fields absent) returns the cache
fields exactly as supplied. -/
theorem find_path_uncached_buffers (P : Props) (st fi : NodeId) (mem : Mem)
    (fuel : Nat)
    (h : (P.cache_open.isSome && P.cache_used.isSome) = false) :
    (isla_find_path (some st) (some fi) (some P) mem fuel).cacheOpen
      = P.cache_open ∧
    (isla_find_path (some st) (some fi) (some P) mem fuel).cacheUsed
      = P.cache_used := by
  unfold isla_find_path
  simp only []
  by_cases hfu : (findLoop P fi fuel (initialState st fi P mem)).1
      = RunStatus.outOfFuel
  · rw [if_pos hfu]
    exact ⟨rfl, rfl⟩
  · rw [if_neg hfu]
    rw [h]
    exact ⟨rfl, rfl⟩

/-- C10: with exactly one of the two cache buffers supplied, the search
runs in non-caching mode: its status, path and final node storage are
those of the run with no cache buffers at all (the supplied buffer is
never read, regardless of its contents), and both cache fields come back
unchanged. -/
theorem find_path_single_cache (P : Props) (st fi : NodeId) (mem : Mem)
    (fuel : Nat)
    (h : (P.cache_open.isSome = true ∧ P.cache_used = none) ∨
      (P.cache_open = none ∧ P.cache_used.isSome = true)) :
    (isla_find_path (some st) (some fi) (some P) mem fuel).cacheOpen
      = P.cache_open ∧
    (isla_find_path (some st) (some fi) (some P) mem fuel).cacheUsed
      = P.cache_used ∧
    (isla_find_path (some st) (some fi) (some P) mem fuel).status =
      (isla_find_path (some st) (some fi)
        (some { P with cache_open := none, cache_used := none })
        mem fuel).status ∧
    (isla_find_path (some st) (some fi) (some P) mem fuel).path =
      (isla_find_path (some st) (some fi)
        (some { P with cache_open := none, cache_used := none })
        mem fuel).path ∧
    (isla_find_path (some st) (some fi) (some P) mem fuel).mem =
      (isla_find_path (some st) (some fi)
        (some { P with cache_open := none, cache_used := none })
        mem fuel).mem := by
  have hcached : (P.cache_open.isSome && P.cache_used.isSome) = false := by
    rcases h with ⟨h1, h2⟩ | ⟨h1, h2⟩ <;> simp [h1, h2]
  have hinit : initialState st fi P mem
      = initialState st fi
          { P with cache_open := none, cache_used := none } mem := by
    unfold initialState
    rw [hcached]
    rfl
  have hr : findLoop P fi fuel (initialState st fi P mem)
      = findLoop { P with cache_open := none, cache_used := none } fi fuel
          (initialState st fi
            { P with cache_open := none, cache_used := none } mem) := by
    rw [hinit]
    exact (findLoop_cache_irrel P none none fi fuel _).symm
  obtain ⟨hc1, hc2⟩ := find_path_uncached_buffers P st fi mem fuel hcached
  obtain ⟨hs, hp, hm⟩ := find_path_some_congr P
    { P with cache_open := none, cache_used := none } st fi mem fuel hr
  exact ⟨hc1, hc2, hs, hp, hm⟩

/-- Witness for the single-cache non-caching theorem: an open-list cache
buffer alone, with nonempty contents, which are ignored. -/
theorem find_path_single_cache_witness :
    ((singleCacheProps.cache_open.isSome = true ∧
        singleCacheProps.cache_used = none) ∨
      (singleCacheProps.cache_open = none ∧
        singleCacheProps.cache_used.isSome = true)) ∧
    ((isla_find_path (some 0) (some 1) (some singleCacheProps) memInit 5).cacheOpen
        = singleCacheProps.cache_open ∧
      (isla_find_path (some 0) (some 1) (some singleCacheProps) memInit 5).cacheUsed
        = singleCacheProps.cache_used ∧
      (isla_find_path (some 0) (some 1) (some singleCacheProps) memInit 5).status =
        (isla_find_path (some 0) (some 1) (some singleCacheFresh)
          memInit 5).status ∧
      (isla_find_path (some 0) (some 1) (some singleCacheProps) memInit 5).path =
        (isla_find_path (some 0) (some 1) (some singleCacheFresh)
          memInit 5).path ∧
      (isla_find_path (some 0) (some 1) (some singleCacheProps) memInit 5).mem =
        (isla_find_path (some 0) (some 1) (some singleCacheFresh)
          memInit 5).mem) :=
  ⟨Or.inl ⟨rfl, rfl⟩,
    find_path_single_cache singleCacheProps 0 1 memInit 5 (Or.inl ⟨rfl, rfl⟩)⟩

/-- A cached search on empty caller buffers: the result triple equals the
fresh-buffer run and both buffers come back truncated to empty. -/
theorem find_path_empty_cache (P : Props) (st fi : NodeId) (mem : Mem)
    (fuel : Nat) (hco : P.cache_open = some []) (hcu : P.cache_used = some []) :
    (isla_find_path (some st) (some fi) (some P) mem fuel).status =
      (isla_find_path (some st) (some fi)
        (some { P with cache_open := none, cache_used := none })
        mem fuel).status ∧
    (isla_find_path (some st) (some fi) (some P) mem fuel).path =
      (isla_find_path (some st) (some fi)
        (some { P with cache_open := none, cache_used := none })
        mem fuel).path ∧
    (isla_find_path (some st) (some fi) (some P) mem fuel).mem =
      (isla_find_path (some st) (some fi)
        (some { P with cache_open := none, cache_used := none })
        mem fuel).mem ∧
    (isla_find_path (some st) (some fi) (some P) mem fuel).cacheOpen
      = some [] ∧
    (isla_find_path (some st) (some fi) (some P) mem fuel).cacheUsed
      = some [] := by
  have hinit := initialState_empty_cache P st fi mem hco hcu
  have hcachedP : (P.cache_open.isSome && P.cache_used.isSome) = true := by
    rw [hco, hcu]
    rfl
  have hr : findLoop P fi fuel (initialState st fi P mem)
      = findLoop { P with cache_open := none, cache_used := none } fi fuel
          (initialState st fi
            { P with cache_open := none, cache_used := none } mem) := by
    rw [hinit]
    exact (findLoop_cache_irrel P none none fi fuel _).symm
  obtain ⟨hs, hp, hm⟩ := find_path_some_congr P
    { P with cache_open := none, cache_used := none } st fi mem fuel hr
  refine ⟨hs, hp, hm, ?_, ?_⟩
  · unfold isla_find_path
    simp only []
    by_cases hfu : (findLoop P fi fuel (initialState st fi P mem)).1
        = RunStatus.outOfFuel
    · rw [if_pos hfu]
      exact hco
    · rw [if_neg hfu, hcachedP]
      rfl
  · unfold isla_find_path
    simp only []
    by_cases hfu : (findLoop P fi fuel (initialState st fi P mem)).1
        = RunStatus.outOfFuel
    · rw [if_pos hfu]
      exact hcu
    · rw [if_neg hfu, hcachedP]
      rfl

/-- C5: two sequential searches reusing the same caller-supplied scratch
buffers (empty at first use, truncated back to empty between the calls)
return results — status, path and final node storage of both searches —
identical to the same two searches each run with freshly allocated scratch
buffers. -/
theorem caching_mode_equivalent (P : Props) (s1 f1 s2 f2 : NodeId)
    (mem : Mem) (fuel : Nat)
    (hco : P.cache_open = some []) (hcu : P.cache_used = some []) :
    (runTwoSearches P s1 f1 s2 f2 mem fuel).1.status =
      (runTwoSearches { P with cache_open := none, cache_used := none }
        s1 f1 s2 f2 mem fuel).1.status ∧
    (runTwoSearches P s1 f1 s2 f2 mem fuel).1.path =
      (runTwoSearches { P with cache_open := none, cache_used := none }
        s1 f1 s2 f2 mem fuel).1.path ∧
    (runTwoSearches P s1 f1 s2 f2 mem fuel).1.mem =
      (runTwoSearches { P with cache_open := none, cache_used := none }
        s1 f1 s2 f2 mem fuel).1.mem ∧
    (runTwoSearches P s1 f1 s2 f2 mem fuel).2.status =
      (runTwoSearches { P with cache_open := none, cache_used := none }
        s1 f1 s2 f2 mem fuel).2.status ∧
    (runTwoSearches P s1 f1 s2 f2 mem fuel).2.path =
      (runTwoSearches { P with cache_open := none, cache_used := none }
        s1 f1 s2 f2 mem fuel).2.path ∧
    (runTwoSearches P s1 f1 s2 f2 mem fuel).2.mem =
      (runTwoSearches { P with cache_open := none, cache_used := none }
        s1 f1 s2 f2 mem fuel).2.mem := by
  obtain ⟨e1, e2, e3, e4, e5⟩ := find_path_empty_cache P s1 f1 mem fuel hco hcu
  have hPn := find_path_uncached_buffers
    { P with cache_open := none, cache_used := none } s1 f1 mem fuel rfl
  have hP2c : { P with
      cache_open := (isla_find_path (some s1) (some f1) (some P) mem fuel).cacheOpen,
      cache_used := (isla_find_path (some s1) (some f1) (some P) mem fuel).cacheUsed }
      = P := by
    rw [e4, e5]
    obtain ⟨a1, a2, a3, a4, a5, a6⟩ := P
    simp only [] at hco hcu
    rw [hco, hcu]
  have hfix : { { P with cache_open := none, cache_used := none } with
      cache_open := (isla_find_path (some s1) (some f1)
        (some { P with cache_open := none, cache_used := none }) mem fuel).cacheOpen,
      cache_used := (isla_find_path (some s1) (some f1)
        (some { P with cache_open := none, cache_used := none }) mem fuel).cacheUsed }
      = { P with cache_open := none, cache_used := none } := by
    rw [hPn.1, hPn.2]
  unfold runTwoSearches
  simp only []
  rw [hP2c, hfix]
  obtain ⟨g1, g2, g3, _, _⟩ := find_path_empty_cache P s2 f2
    (isla_find_path (some s1) (some f1) (some P) mem fuel).mem fuel hco hcu
  refine ⟨e1, e2, e3, ?_, ?_, ?_⟩
  · rw [← e3]
    exact g1
  · rw [← e3]
    exact g2
  · rw [← e3]
    exact g3

/-- Witness for the caching-equivalence theorem on the concrete one-edge
search graph, run twice with the same initially empty scratch buffers. -/
theorem caching_mode_equivalent_witness :
    (cachedReachProps.cache_open = some [] ∧
      cachedReachProps.cache_used = some []) ∧
    ((runTwoSearches cachedReachProps 0 1 0 1 memInit 5).1.status =
        (runTwoSearches cachedReachFresh 0 1 0 1 memInit 5).1.status ∧
      (runTwoSearches cachedReachProps 0 1 0 1 memInit 5).1.path =
        (runTwoSearches cachedReachFresh 0 1 0 1 memInit 5).1.path ∧
      (runTwoSearches cachedReachProps 0 1 0 1 memInit 5).1.mem =
        (runTwoSearches cachedReachFresh 0 1 0 1 memInit 5).1.mem ∧
      (runTwoSearches cachedReachProps 0 1 0 1 memInit 5).2.status =
        (runTwoSearches cachedReachFresh 0 1 0 1 memInit 5).2.status ∧
      (runTwoSearches cachedReachProps 0 1 0 1 memInit 5).2.path =
        (runTwoSearches cachedReachFresh 0 1 0 1 memInit 5).2.path ∧
      (runTwoSearches cachedReachProps 0 1 0 1 memInit 5).2.mem =
        (runTwoSearches cachedReachFresh 0 1 0 1 memInit 5).2.mem) :=
  ⟨⟨rfl, rfl⟩,
    caching_mode_equivalent cachedReachProps 0 1 0 1 memInit 5 rfl rfl⟩

/-- Witness for the dequeue correctness theorem on a concrete three-node
min-heap. -/
theorem dequeue_correct_witness :
    IsHeap (fun x => (heapDemoMem x).f) [1, 2, 3] ∧
    2 ≤ ([1, 2, 3] : List NodeId).length ∧
    (isla_heap_dequeue heapDemoMem [1, 2, 3]).1 =
      some (([1, 2, 3] : List NodeId).getD 0 0) :=
  ⟨by decide, by decide,
    ((dequeue_correct heapDemoMem [1, 2, 3] (by decide)).2.2 (by decide)).1⟩

end IslAstar

